import Mathlib

/-!
Verification of the Schedule Time-Window Engine of the load-shedding viewer.

The development embeds the pure logic of the React components:
  the active-session scan (`checkCurrentSchedule` / `checkSchedule`),
  the upcoming ranker (`checkUpcomingSchedules`, `getDayOffset`,
  `getTimeUntilStart`), the weekly layout (grouping and sorting of
  `fetchWeeklySchedules`, `getSchedulePosition`, `getScheduleHeight`),
  and the filter chain of `fetchSchedules`.

Times are the `"HH:MM"` strings the app stores; the app compares them with
JavaScript string comparison, which we model as lexicographic comparison of
character codes (all characters involved are ASCII digits and a colon, where
code-unit order and the default collation agree).  The current instant is a
weekday index (`Date.getDay()`, Sunday = 0) together with a `"HH:MM"` string.
-/

/-- One recurring weekly interruption window: the `Schedule` record of the app
(a session of a schedule document, flattened with its document id and suburb). -/
structure Session where
  id : String
  day : String
  startTime : String
  endTime : String
  level : Int
  suburbId : String
  deriving DecidableEq

/-- An upcoming session decorated with its formatted lead time
(the `UpcomingSchedule` record of the status screen). -/
structure UpcomingSchedule extends Session where
  timeUntilStart : String
  deriving DecidableEq

/-- One day of the weekly calendar: the day name with its sessions
(the `DaySchedule` record of the weekly view). -/
structure DaySchedule where
  day : String
  schedules : List Session
  deriving DecidableEq

/-- Lexicographic comparison of character sequences by character code: the
JavaScript `<` operator on strings (code-unit order). -/
def lexLt : List Char → List Char → Bool
  | [], [] => false
  | _ :: _, [] => false
  | [], _ :: _ => true
  | a :: as, b :: bs =>
    if a.toNat < b.toNat then true
    else if b.toNat < a.toNat then false
    else lexLt as bs

theorem lexLt_nil_nil : lexLt [] [] = false := rfl

theorem lexLt_cons_cons (a b : Char) (as bs : List Char) :
    lexLt (a :: as) (b :: bs) =
      if a.toNat < b.toNat then true
      else if b.toNat < a.toNat then false
      else lexLt as bs := rfl

/-- JavaScript string `<`. -/
def strLt (a b : String) : Bool := lexLt a.data b.data

/-- JavaScript string `<=`: the negation of the reversed `<`
(string comparison is total). -/
def strLe (a b : String) : Bool := !strLt b a

/-- ASCII decimal digit test. -/
def isDigitCh (c : Char) : Bool := 48 ≤ c.toNat && c.toNat ≤ 57

/-- Value of an ASCII digit character. -/
def dv (c : Char) : Nat := c.toNat - 48

/-- Well-formed zero-padded 24-hour `"HH:MM"` wall-clock string. -/
def isHHMM (s : String) : Bool :=
  match s.data with
  | [h1, h2, c, m1, m2] =>
    c == ':' && isDigitCh h1 && isDigitCh h2 && isDigitCh m1 && isDigitCh m2 &&
      decide (dv h1 * 10 + dv h2 < 24) && decide (dv m1 * 10 + dv m2 < 60)
  | _ => false

/-- Hour component of an `"HH:MM"` string (the `Number` of `split(':')[0]`
for a well-formed string). -/
def hoursOf (s : String) : Nat :=
  match s.data with
  | [h1, h2, _, _, _] => dv h1 * 10 + dv h2
  | _ => 0

/-- Minute component of an `"HH:MM"` string. -/
def minsOf (s : String) : Nat :=
  match s.data with
  | [_, _, _, m1, m2] => dv m1 * 10 + dv m2
  | _ => 0

/-- Minutes since midnight of an `"HH:MM"` string: the engine's
`minutesSinceMidnight`. -/
def minutesSinceMidnight (s : String) : Nat := hoursOf s * 60 + minsOf s

theorem isHHMM_shape {s : String} (h : isHHMM s = true) :
    ∃ h1 h2 m1 m2 : Char, s.data = [h1, h2, ':', m1, m2] ∧
      48 ≤ h1.toNat ∧ h1.toNat ≤ 57 ∧ 48 ≤ h2.toNat ∧ h2.toNat ≤ 57 ∧
      48 ≤ m1.toNat ∧ m1.toNat ≤ 57 ∧ 48 ≤ m2.toNat ∧ m2.toNat ≤ 57 ∧
      dv h1 * 10 + dv h2 < 24 ∧ dv m1 * 10 + dv m2 < 60 := by
  unfold isHHMM at h
  split at h
  case h_2 => exact absurd h (by simp)
  case h_1 h1 h2 c m1 m2 heq =>
    simp only [Bool.and_eq_true, beq_iff_eq, isDigitCh, decide_eq_true_eq,
      Bool.and_eq_true] at h
    obtain ⟨⟨⟨⟨⟨⟨hc, hd1⟩, hd2⟩, hd3⟩, hd4⟩, hh⟩, hm⟩ := h
    subst hc
    exact ⟨h1, h2, m1, m2, heq, hd1.1, hd1.2, hd2.1, hd2.2,
      hd3.1, hd3.2, hd4.1, hd4.2, hh, hm⟩

theorem lexLt_hhmm {a b d e a' b' d' e' : Char}
    (ha1 : 48 ≤ a.toNat) (ha2 : a.toNat ≤ 57)
    (ha1' : 48 ≤ a'.toNat) (ha2' : a'.toNat ≤ 57)
    (hb1 : 48 ≤ b.toNat) (hb2 : b.toNat ≤ 57)
    (hb1' : 48 ≤ b'.toNat) (hb2' : b'.toNat ≤ 57)
    (he1 : 48 ≤ e.toNat) (he2 : e.toNat ≤ 57)
    (he1' : 48 ≤ e'.toNat) (he2' : e'.toNat ≤ 57)
    (hm : dv d * 10 + dv e < 60) (hm' : dv d' * 10 + dv e' < 60)
    (hd1 : 48 ≤ d.toNat) (hd1' : 48 ≤ d'.toNat) :
    lexLt [a, b, ':', d, e] [a', b', ':', d', e'] = true ↔
      (dv a * 10 + dv b) * 60 + (dv d * 10 + dv e) <
        (dv a' * 10 + dv b') * 60 + (dv d' * 10 + dv e') := by
  have h58 : (':' : Char).toNat = 58 := rfl
  rw [lexLt_cons_cons, lexLt_cons_cons, lexLt_cons_cons, lexLt_cons_cons,
    lexLt_cons_cons, lexLt_nil_nil]
  simp only [dv] at hm hm' ⊢
  rw [h58, if_neg (lt_irrefl 58), if_neg (lt_irrefl 58)]
  split_ifs <;> simp <;> omega

theorem minutes_eq_of_shape {s : String} {h1 h2 m1 m2 : Char}
    (hd : s.data = [h1, h2, ':', m1, m2]) :
    minutesSinceMidnight s = (dv h1 * 10 + dv h2) * 60 + (dv m1 * 10 + dv m2) := by
  simp only [minutesSinceMidnight, hoursOf, minsOf, hd]

/-- String `<` on well-formed `"HH:MM"` strings is numeric comparison of
minutes since midnight. -/
theorem strLt_iff_minutes {s t : String} (hs : isHHMM s = true) (ht : isHHMM t = true) :
    strLt s t = true ↔ minutesSinceMidnight s < minutesSinceMidnight t := by
  obtain ⟨h1, h2, m1, m2, hd, p1, p2, p3, p4, p5, p6, p7, p8, _, pm⟩ := isHHMM_shape hs
  obtain ⟨h1', h2', m1', m2', hd', q1, q2, q3, q4, q5, q6, q7, q8, _, qm⟩ := isHHMM_shape ht
  rw [strLt, hd, hd', minutes_eq_of_shape hd, minutes_eq_of_shape hd']
  exact lexLt_hhmm p1 p2 q1 q2 p3 p4 q3 q4 p7 p8 q7 q8 pm qm p5 q5

/-- String `<=` on well-formed `"HH:MM"` strings is numeric comparison of
minutes since midnight. -/
theorem strLe_iff_minutes {s t : String} (hs : isHHMM s = true) (ht : isHHMM t = true) :
    strLe s t = true ↔ minutesSinceMidnight s ≤ minutesSinceMidnight t := by
  have h := strLt_iff_minutes ht hs
  cases hb : strLt t s
  · rw [hb] at h
    simp only [Bool.false_eq_true, false_iff, not_lt] at h
    simp [strLe, hb, h]
  · rw [hb] at h
    simp only [true_iff] at h
    simp [strLe, hb]
    omega

/-- C10: for well-formed zero-padded `"HH:MM"` strings, lexicographic string
comparison (the JavaScript `<` / `<=` the code applies to `startTime`,
`endTime` and the current time) agrees with numeric comparison of
minutes-since-midnight values. -/
theorem string_order_agrees_with_minute_order (s t : String)
    (hs : isHHMM s = true) (ht : isHHMM t = true) :
    (strLt s t = true ↔ minutesSinceMidnight s < minutesSinceMidnight t) ∧
    (strLe s t = true ↔ minutesSinceMidnight s ≤ minutesSinceMidnight t) :=
  ⟨strLt_iff_minutes hs ht, strLe_iff_minutes hs ht⟩

theorem string_order_agrees_with_minute_order_witness :
    (isHHMM "09:30" = true ∧ isHHMM "10:00" = true) ∧
    ((strLt "09:30" "10:00" = true ↔
        minutesSinceMidnight "09:30" < minutesSinceMidnight "10:00") ∧
      (strLe "09:30" "10:00" = true ↔
        minutesSinceMidnight "09:30" ≤ minutesSinceMidnight "10:00")) :=
  ⟨⟨by decide, by decide⟩,
    string_order_agrees_with_minute_order "09:30" "10:00" (by decide) (by decide)⟩

theorem lexLt_asymm : ∀ (a b : List Char), lexLt a b = true → lexLt b a = false := by
  intro a
  induction a with
  | nil =>
    intro b h
    cases b with
    | nil => simp [lexLt_nil_nil] at h
    | cons y ys => rfl
  | cons x xs ih =>
    intro b h
    cases b with
    | nil => simp [lexLt] at h
    | cons y ys =>
      rw [lexLt_cons_cons] at h
      rw [lexLt_cons_cons]
      by_cases h1 : x.toNat < y.toNat
      · rw [if_neg (by omega : ¬y.toNat < x.toNat), if_pos h1]
      · by_cases h2 : y.toNat < x.toNat
        · rw [if_neg h1, if_pos h2] at h
          simp at h
        · rw [if_neg h1, if_neg h2] at h
          rw [if_neg h2, if_neg h1]
          exact ih ys h

theorem lexLt_resolve : ∀ (c a b : List Char),
    lexLt c a = true → lexLt c b = true ∨ lexLt b a = true := by
  intro c
  induction c with
  | nil =>
    intro a b h
    cases a with
    | nil => simp [lexLt_nil_nil] at h
    | cons x xs =>
      cases b with
      | nil => right; rfl
      | cons y ys => left; rfl
  | cons z zs ih =>
    intro a b h
    cases a with
    | nil => simp [lexLt] at h
    | cons x xs =>
      cases b with
      | nil => right; rfl
      | cons y ys =>
        rw [lexLt_cons_cons] at h
        rw [lexLt_cons_cons, lexLt_cons_cons]
        by_cases hzx : z.toNat < x.toNat
        · by_cases hzy : z.toNat < y.toNat
          · left; rw [if_pos hzy]
          · right; rw [if_pos (by omega : y.toNat < x.toNat)]
        · by_cases hxz : x.toNat < z.toNat
          · rw [if_neg hzx, if_pos hxz] at h
            simp at h
          · rw [if_neg hzx, if_neg hxz] at h
            by_cases hzy : z.toNat < y.toNat
            · left; rw [if_pos hzy]
            · by_cases hyz : y.toNat < z.toNat
              · right; rw [if_pos (by omega : y.toNat < x.toNat)]
              · rcases ih xs ys h with h1 | h2
                · left
                  rw [if_neg hzy, if_neg hyz]
                  exact h1
                · right
                  rw [if_neg (by omega : ¬y.toNat < x.toNat),
                    if_neg (by omega : ¬x.toNat < y.toNat)]
                  exact h2

theorem strLe_total (a b : String) : (strLe a b || strLe b a) = true := by
  cases h : strLt b a
  · simp [strLe, h]
  · have hf := lexLt_asymm b.data a.data h
    simp [strLe, strLt, hf]

theorem strLe_trans (a b c : String) (h1 : strLe a b = true) (h2 : strLe b c = true) :
    strLe a c = true := by
  rw [strLe, Bool.not_eq_true'] at h1 h2 ⊢
  cases h : strLt c a
  · rfl
  · rcases lexLt_resolve c.data a.data b.data h with hx | hx
    · rw [strLt] at h2
      rw [h2] at hx
      simp at hx
    · rw [strLt] at h1
      rw [h1] at hx
      simp at hx

/-- Last-match-wins scan: folding an `if`-assignment over a list keeps the last
element satisfying the test (the `forEach` reassignment pattern of the app). -/
theorem foldl_lastMatch {α : Type} (p : α → Bool) :
    ∀ (l : List α) (init : Option α),
      l.foldl (fun acc s => if p s then some s else acc) init =
        ((l.filter p).getLast?).or init := by
  intro l
  induction l with
  | nil => intro init; simp
  | cons a l ih =>
    intro init
    rw [List.foldl_cons, ih]
    by_cases h : p a = true
    · rw [if_pos h, List.filter_cons_of_pos h]
      cases hfl : l.filter p with
      | nil => simp
      | cons b r =>
        rw [List.getLast?_cons_cons]
        cases hx : (b :: r).getLast? with
        | none => simp [List.getLast?_eq_none_iff] at hx
        | some x => simp [Option.or]
    · rw [if_neg h, List.filter_cons_of_neg (by simp [h])]

/-- Weekday names indexed Sunday = 0 .. Saturday = 6: the `days` array of
`getDayOffset`, matching `Date.getDay()`. -/
def daysSun : List String :=
  ["Sunday", "Monday", "Tuesday", "Wednesday", "Thursday", "Friday", "Saturday"]

/-- Weekday names Monday-first: the `days` array of the weekly view and of
the search view's sort. -/
def daysMon : List String :=
  ["Monday", "Tuesday", "Wednesday", "Thursday", "Friday", "Saturday", "Sunday"]

/-- Model of `days.indexOf(day)` in `getDayOffset`: position in the Sunday-first week,
`-1` when the string is not a weekday name. -/
def dayIndex (day : String) : Int :=
  match daysSun.findIdx? (fun d => d == day) with
  | some i => (i : Int)
  | none => -1

/-- The weekday name of the current instant
(`toLocaleDateString('en-US', weekday long)` for `Date.getDay() = today`). -/
def dayName (today : Nat) : String := daysSun.getD today ""

/-- Model of `getDayOffset`: cyclic distance in days, `(targetIndex + 7 - today) % 7`,
where `today` is `Date.getDay()` (Sunday = 0). -/
def getDayOffset (today : Nat) (day : String) : Int :=
  (dayIndex day + 7 - (today : Int)) % 7

/-- The active test of `checkCurrentSchedule` / `checkSchedule`: same weekday,
`startTime <= currentTime` and `endTime > currentTime`, as string comparisons. -/
def activeTest (currentDay currentTime : String) (s : Session) : Bool :=
  s.day == currentDay && strLe s.startTime currentTime && strLt currentTime s.endTime

/-- The active-session scan of `checkCurrentSchedule` / `checkSchedule`: each
matching session overwrites `activeSchedule`, so the last match in iteration
order wins. -/
def checkCurrentSchedule (sessions : List Session) (currentDay currentTime : String) :
    Option Session :=
  sessions.foldl
    (fun acc s => if activeTest currentDay currentTime s then some s else acc) none

/-- The same qualification expressed on minutes since midnight, as the spec
states it. -/
def activeQual (currentDay : String) (nowMin : Nat) (s : Session) : Bool :=
  s.day == currentDay && decide (minutesSinceMidnight s.startTime ≤ nowMin) &&
    decide (nowMin < minutesSinceMidnight s.endTime)

/-- C1: `resolveActive` (the scan of `checkCurrentSchedule` / `checkSchedule`)
returns exactly the last session in iteration order whose day equals the
current weekday and whose window contains the current time with
`minutesSinceMidnight(startTime) <= now < minutesSinceMidnight(endTime)`
(end exclusive); when no session qualifies the result is `none`. -/
theorem checkCurrentSchedule_eq_last_qualifying
    (sessions : List Session) (currentDay currentTime : String)
    (hs : ∀ s ∈ sessions, isHHMM s.startTime = true ∧ isHHMM s.endTime = true)
    (ht : isHHMM currentTime = true) :
    checkCurrentSchedule sessions currentDay currentTime =
      (sessions.filter
        (activeQual currentDay (minutesSinceMidnight currentTime))).getLast? := by
  rw [checkCurrentSchedule, foldl_lastMatch, Option.or_none]
  congr 1
  apply List.filter_congr
  intro s hmem
  obtain ⟨hst, het⟩ := hs s hmem
  have e1 : strLe s.startTime currentTime =
      decide (minutesSinceMidnight s.startTime ≤ minutesSinceMidnight currentTime) := by
    rw [Bool.eq_iff_iff, strLe_iff_minutes hst ht, decide_eq_true_eq]
  have e2 : strLt currentTime s.endTime =
      decide (minutesSinceMidnight currentTime < minutesSinceMidnight s.endTime) := by
    rw [Bool.eq_iff_iff, strLt_iff_minutes ht het, decide_eq_true_eq]
  rw [activeTest, activeQual, e1, e2]

/-- Demonstration data: two overlapping Monday evening windows. -/
def mondaySession : Session := ⟨"doc1", "Monday", "18:00", "20:00", 2, "sub1"⟩

def mondaySessionB : Session := ⟨"doc2", "Monday", "18:30", "21:00", 3, "sub1"⟩

def demoSessions : List Session := [mondaySession, mondaySessionB]

theorem checkCurrentSchedule_eq_last_qualifying_witness :
    ((∀ s ∈ demoSessions, isHHMM s.startTime = true ∧ isHHMM s.endTime = true) ∧
      isHHMM "19:00" = true) ∧
    checkCurrentSchedule demoSessions "Monday" "19:00" =
      (demoSessions.filter
        (activeQual "Monday" (minutesSinceMidnight "19:00"))).getLast? :=
  ⟨⟨by decide, by decide⟩,
    checkCurrentSchedule_eq_last_qualifying demoSessions "Monday" "19:00"
      (by decide) (by decide)⟩

/-- The selection test of `checkUpcomingSchedules`: later today
(`day === currentDay && startTime > currentTime`) or on a strictly later day of
the cyclic week (`getDayOffset(day) > getDayOffset(currentDay)`). -/
def upcomingTest (today : Nat) (currentTime : String) (s : Session) : Bool :=
  (s.day == dayName today && strLt currentTime s.startTime) ||
    decide (getDayOffset today (dayName today) < getDayOffset today s.day)

/-- The lead-time format of `getTimeUntilStart`: day granularity from 24 hours
upward (minutes dropped), otherwise hours and minutes (the hour part is always
printed). -/
def leadTimeLabel (diffMin : Nat) : String :=
  let hoursUntil := diffMin / 60
  let minutesUntil := diffMin % 60
  if 24 ≤ hoursUntil then
    toString (hoursUntil / 24) ++ "d " ++ toString (hoursUntil % 24) ++ "h"
  else toString hoursUntil ++ "h " ++ toString minutesUntil ++ "m"

/-- Model of `getTimeUntilStart`: minutes from now to the session's next occurrence
(`getDayOffset` days ahead at `startTime`), formatted. -/
def getTimeUntilStart (today nowMin : Nat) (day startTime : String) : String :=
  leadTimeLabel
    (getDayOffset today day * 1440 + (minutesSinceMidnight startTime : Int) -
      (nowMin : Int)).toNat

/-- One `UpcomingSchedule` entry as `checkUpcomingSchedules` pushes it. -/
def mkUpcoming (today : Nat) (currentTime : String) (s : Session) : UpcomingSchedule :=
  ⟨s, getTimeUntilStart today (minutesSinceMidnight currentTime) s.day s.startTime⟩

/-- The sort comparator of `checkUpcomingSchedules` as a `≤` test: ascending
day offset, ties broken by `startTime` (`localeCompare`). -/
def upcomingLE (today : Nat) (a b : UpcomingSchedule) : Bool :=
  decide (getDayOffset today a.day < getDayOffset today b.day) ||
    (getDayOffset today a.day == getDayOffset today b.day &&
      strLe a.startTime b.startTime)

/-- Model of `checkUpcomingSchedules`: keep the future sessions, attach lead times,
sort by (day offset, start time), truncate (`slice(0, limit)`). -/
def checkUpcomingSchedules (sessions : List Session) (today : Nat)
    (currentTime : String) (limit : Nat) : List UpcomingSchedule :=
  (((sessions.filter (upcomingTest today currentTime)).map
      (mkUpcoming today currentTime)).mergeSort (upcomingLE today)).take limit

theorem getDayOffset_dayName (today : Nat) (h : today < 7) :
    getDayOffset today (dayName today) = 0 := by
  interval_cases today <;> decide

theorem upcomingLE_trans (today : Nat) (a b c : UpcomingSchedule)
    (h1 : upcomingLE today a b = true) (h2 : upcomingLE today b c = true) :
    upcomingLE today a c = true := by
  simp only [upcomingLE, Bool.or_eq_true, decide_eq_true_eq, Bool.and_eq_true,
    beq_iff_eq] at h1 h2 ⊢
  rcases h1 with h1 | ⟨e1, s1⟩ <;> rcases h2 with h2 | ⟨e2, s2⟩
  · exact Or.inl (lt_trans h1 h2)
  · exact Or.inl (by omega)
  · exact Or.inl (by omega)
  · exact Or.inr ⟨by omega, strLe_trans _ _ _ s1 s2⟩

theorem upcomingLE_total (today : Nat) (a b : UpcomingSchedule) :
    (upcomingLE today a b || upcomingLE today b a) = true := by
  simp only [upcomingLE, Bool.or_eq_true, decide_eq_true_eq, Bool.and_eq_true,
    beq_iff_eq]
  rcases lt_trichotomy (getDayOffset today a.day) (getDayOffset today b.day) with
    h | h | h
  · exact Or.inl (Or.inl h)
  · have htot := strLe_total a.startTime b.startTime
    simp only [Bool.or_eq_true] at htot
    rcases htot with hs | hs
    · exact Or.inl (Or.inr ⟨h, hs⟩)
    · exact Or.inr (Or.inr ⟨h.symm, hs⟩)
  · exact Or.inr (Or.inl h)

/-- C2: the upcoming ranker selects a session iff it is later today (same
weekday and start strictly after now) or its cyclic day offset from today is
strictly positive; a same-weekday session whose start time has already passed
is excluded entirely, not reinterpreted as next week. -/
theorem checkUpcomingSchedules_selection
    (sessions : List Session) (today : Nat) (currentTime : String)
    (htoday : today < 7)
    (hs : ∀ s ∈ sessions, isHHMM s.startTime = true)
    (ht : isHHMM currentTime = true) :
    (∀ s ∈ sessions, upcomingTest today currentTime s = true ↔
      ((s.day = dayName today ∧
          minutesSinceMidnight currentTime < minutesSinceMidnight s.startTime) ∨
        0 < getDayOffset today s.day)) ∧
    (∀ u, u ∈ checkUpcomingSchedules sessions today currentTime sessions.length ↔
      ∃ s ∈ sessions, upcomingTest today currentTime s = true ∧
        u = mkUpcoming today currentTime s) ∧
    (∀ s ∈ sessions, s.day = dayName today →
      minutesSinceMidnight s.startTime ≤ minutesSinceMidnight currentTime →
      upcomingTest today currentTime s = false) := by
  refine ⟨?_, ?_, ?_⟩
  · intro s hmem
    rw [upcomingTest, getDayOffset_dayName today htoday]
    simp only [Bool.or_eq_true, Bool.and_eq_true, beq_iff_eq, decide_eq_true_eq]
    rw [strLt_iff_minutes ht (hs s hmem)]
  · intro u
    rw [checkUpcomingSchedules, List.take_of_length_le]
    · simp only [List.mem_mergeSort, List.mem_map, List.mem_filter]
      constructor
      · rintro ⟨s, ⟨hm, htest⟩, rfl⟩
        exact ⟨s, hm, htest, rfl⟩
      · rintro ⟨s, hm, htest, rfl⟩
        exact ⟨s, ⟨hm, htest⟩, rfl⟩
    · rw [List.length_mergeSort, List.length_map]
      exact List.length_filter_le _ _
  · intro s hmem hd hle
    have h1 : strLt currentTime s.startTime = false := by
      rw [← Bool.not_eq_true, strLt_iff_minutes ht (hs s hmem)]
      omega
    rw [upcomingTest, hd, getDayOffset_dayName today htoday]
    simp [h1]

/-- Demonstration session on a future weekday. -/
def wednesdaySession : Session := ⟨"doc3", "Wednesday", "06:00", "08:00", 1, "sub1"⟩

def upcomingDemo : List Session := [mondaySession, wednesdaySession]

theorem checkUpcomingSchedules_selection_witness :
    (1 < 7 ∧ (∀ s ∈ upcomingDemo, isHHMM s.startTime = true) ∧
      isHHMM "10:00" = true) ∧
    (upcomingTest 1 "10:00" wednesdaySession = true ↔
      ((wednesdaySession.day = dayName 1 ∧
          minutesSinceMidnight "10:00" <
            minutesSinceMidnight wednesdaySession.startTime) ∨
        0 < getDayOffset 1 wednesdaySession.day)) :=
  ⟨⟨by decide, by decide, by decide⟩,
    (checkUpcomingSchedules_selection upcomingDemo 1 "10:00" (by decide)
        (by decide) (by decide)).1 wednesdaySession (by decide)⟩

/-- C3: with limit 3 the upcoming list has exactly min(3, number of qualifying
sessions) entries, never more than 3, and consecutive entries are
non-decreasing in (cyclic day offset, startTime string order). -/
theorem checkUpcomingSchedules_sorted_and_bounded
    (sessions : List Session) (today : Nat) (currentTime : String) :
    (checkUpcomingSchedules sessions today currentTime 3).length =
      min 3 (sessions.filter (upcomingTest today currentTime)).length ∧
    (checkUpcomingSchedules sessions today currentTime 3).length ≤ 3 ∧
    (checkUpcomingSchedules sessions today currentTime 3).Chain'
      (fun a b => getDayOffset today a.day < getDayOffset today b.day ∨
        (getDayOffset today a.day = getDayOffset today b.day ∧
          strLe a.startTime b.startTime = true)) := by
  have hlen : (checkUpcomingSchedules sessions today currentTime 3).length =
      min 3 (sessions.filter (upcomingTest today currentTime)).length := by
    rw [checkUpcomingSchedules, List.length_take, List.length_mergeSort,
      List.length_map]
  refine ⟨hlen, ?_, ?_⟩
  · rw [hlen]
    exact Nat.min_le_left _ _
  · have hsorted := List.sorted_mergeSort
      (fun a b c => upcomingLE_trans today a b c) (upcomingLE_total today)
      ((sessions.filter (upcomingTest today currentTime)).map
        (mkUpcoming today currentTime))
    have htake := hsorted.sublist (List.take_sublist 3 _)
    refine (htake.imp ?_).chain'
    intro a b h
    simp only [upcomingLE, Bool.or_eq_true, decide_eq_true_eq, Bool.and_eq_true,
      beq_iff_eq] at h
    exact h

/-- The `durationLabel` of the spec: the remaining-time format of the status screens'
countdown, with the hour part omitted when zero. -/
def durationLabel (totalMinutes : Nat) : String :=
  let hoursLeft := totalMinutes / 60
  let remainingMinutes := totalMinutes % 60
  (if 0 < hoursLeft then toString hoursLeft ++ "h " else "") ++
    toString remainingMinutes ++ "m"

/-- The countdown of the `timeRemaining` effect: minutes from now until the
active session's `endTime`, split into hours and minutes and formatted by the
template `${hoursLeft > 0 ? hoursLeft + "h " : ""} + remainingMinutes + "m remaining"`,
including its literal `" remaining"` suffix. -/
def timeRemaining (s : Session) (nowMin : Nat) : String :=
  let minutesLeft := minutesSinceMidnight s.endTime - nowMin
  let hoursLeft := minutesLeft / 60
  let remainingMinutes := minutesLeft % 60
  (if 0 < hoursLeft then toString hoursLeft ++ "h " else "") ++
    toString remainingMinutes ++ "m remaining"

/-- C5 counterexample: the countdown string the code builds carries the
literal `" remaining"` suffix, so at Monday 19:00 the active
Monday 18:00-20:00 session shows `"1h 0m remaining"`, which is not the bare
`durationLabel` value `"1h 0m"`. -/
theorem timeRemaining_includes_suffix :
    checkCurrentSchedule [mondaySession] "Monday" "19:00" = some mondaySession ∧
    timeRemaining mondaySession (minutesSinceMidnight "19:00") = "1h 0m remaining" ∧
    durationLabel
      (minutesSinceMidnight mondaySession.endTime - minutesSinceMidnight "19:00") =
        "1h 0m" ∧
    timeRemaining mondaySession (minutesSinceMidnight "19:00") ≠
      durationLabel
        (minutesSinceMidnight mondaySession.endTime -
          minutesSinceMidnight "19:00") := by decide

/-- C5 amended: whenever the resolver finds an active session the remaining
label is `durationLabel` of `minutesSinceMidnight(endTime) - nowMinutes`
followed by the literal suffix `" remaining"`; `durationLabel` is
`"{h}h {m}m"` when hours are positive and `"{m}m"` otherwise (0 minutes gives
`"0m"`); for the single Monday 18:00-20:00 session at Monday 19:00 the label
is exactly `"1h 0m remaining"`. -/
theorem active_remaining_label
    (sessions : List Session) (currentDay currentTime : String) (s : Session)
    (_hact : checkCurrentSchedule sessions currentDay currentTime = some s) :
    timeRemaining s (minutesSinceMidnight currentTime) =
      durationLabel
        (minutesSinceMidnight s.endTime - minutesSinceMidnight currentTime) ++
        " remaining" ∧
    (∀ t : Nat, 0 < t / 60 →
      durationLabel t = toString (t / 60) ++ "h " ++ toString (t % 60) ++ "m") ∧
    (∀ t : Nat, t < 60 → durationLabel t = toString t ++ "m") ∧
    durationLabel 0 = "0m" ∧
    checkCurrentSchedule [mondaySession] "Monday" "19:00" = some mondaySession ∧
    timeRemaining mondaySession (minutesSinceMidnight "19:00") =
      "1h 0m remaining" := by
  refine ⟨?_, ?_, ?_, by decide, by decide, by decide⟩
  · simp only [timeRemaining, durationLabel]
    rw [String.append_assoc _ "m" " remaining"]
    congr 1
  · intro t h
    simp only [durationLabel]
    rw [if_pos h]
  · intro t h
    simp only [durationLabel]
    rw [if_neg (by omega), Nat.mod_eq_of_lt h]
    simp

theorem active_remaining_label_witness :
    checkCurrentSchedule [mondaySession] "Monday" "19:00" = some mondaySession ∧
    timeRemaining mondaySession (minutesSinceMidnight "19:00") =
      "1h 0m remaining" :=
  ⟨by decide,
    (active_remaining_label [mondaySession] "Monday" "19:00" mondaySession
        (by decide)).2.2.2.2.2⟩

/-- C6 counterexample: below 24 hours the code's lead-time label keeps a zero
hour part — 30 minutes formats as `"0h 30m"`, not `"30m"` as a
`durationLabel`-like format (hour part omitted when zero) would give. -/
theorem leadTimeLabel_zero_hour_not_omitted :
    leadTimeLabel 30 = "0h 30m" ∧ durationLabel 30 = "30m" ∧
      leadTimeLabel 30 ≠ durationLabel 30 := by decide

/-- C6 amended: below 24 hours the lead-time label is `"{h}h {m}m"` with the
hour part always present (even when zero, unlike `durationLabel`); from 1440
minutes on it is `"{d}d {h}h"` with minutes dropped; 1500 minutes gives
`"1d 1h"`. -/
theorem leadTimeLabel_format (t : Nat) :
    (t < 1440 →
      leadTimeLabel t = toString (t / 60) ++ "h " ++ toString (t % 60) ++ "m") ∧
    (1440 ≤ t →
      leadTimeLabel t =
        toString (t / 1440) ++ "d " ++ toString (t / 60 % 24) ++ "h") ∧
    leadTimeLabel 1500 = "1d 1h" := by
  refine ⟨?_, ?_, by decide⟩
  · intro h
    simp only [leadTimeLabel]
    rw [if_neg (by omega)]
  · intro h
    simp only [leadTimeLabel]
    rw [if_pos (by omega), Nat.div_div_eq_div_mul]

theorem leadTimeLabel_format_witness :
    ((0 : Nat) < 1440 ∧
      leadTimeLabel 0 =
        toString (0 / 60 : Nat) ++ "h " ++ toString (0 % 60 : Nat) ++ "m") ∧
    ((1440 : Nat) ≤ 1500 ∧
      leadTimeLabel 1500 =
        toString (1500 / 1440 : Nat) ++ "d " ++ toString (1500 / 60 % 24 : Nat) ++ "h") :=
  ⟨⟨by decide, (leadTimeLabel_format 0).1 (by decide)⟩,
    ⟨by decide, (leadTimeLabel_format 1500).2.1 (by decide)⟩⟩

/-- The three optional filter fields of the search view; the empty string is
"unset" (JS truthiness of a string). -/
structure ScheduleFilter where
  day : String
  level : String
  timeRange : String
  deriving DecidableEq

/-- White space skipped by JavaScript `parseInt` (space, tab, line feed,
vertical tab, form feed, carriage return, no-break space, BOM). -/
def isJsSpace (c : Char) : Bool :=
  c == ' ' || c == '\t' || c == '\n' || c == '\r' ||
    c.toNat == 11 || c.toNat == 12 || c.toNat == 160 || c.toNat == 65279

/-- ASCII hexadecimal digit test. -/
def isHexDigitCh (c : Char) : Bool :=
  isDigitCh c || (97 ≤ c.toNat && c.toNat ≤ 102) || (65 ≤ c.toNat && c.toNat ≤ 70)

/-- Value of an ASCII hexadecimal digit character. -/
def hexVal (c : Char) : Nat :=
  if isDigitCh c then c.toNat - 48
  else if 97 ≤ c.toNat then c.toNat - 87
  else c.toNat - 55

/-- Parse a leading run of decimal digits with a sign; empty run gives `none`
(the `NaN` result). -/
def parseDecDigits (sign : Int) (l : List Char) : Option Int :=
  let ds := l.takeWhile isDigitCh
  if ds.isEmpty then none
  else some (sign * Int.ofNat (ds.foldl (fun acc c => acc * 10 + dv c) 0))

/-- JavaScript `parseInt` with no radix argument: skip white space, optional
sign, then a leading `0x`/`0X` switches to hexadecimal, otherwise a leading
decimal digit run; `none` models `NaN`. -/
def parseIntJS (s : String) : Option Int :=
  let l := s.data.dropWhile isJsSpace
  let sr : Int × List Char :=
    match l with
    | '-' :: r => (-1, r)
    | '+' :: r => (1, r)
    | _ => (1, l)
  match sr.2 with
  | '0' :: x :: r =>
    if x == 'x' || x == 'X' then
      let ds := r.takeWhile isHexDigitCh
      if ds.isEmpty then none
      else some (sr.1 * Int.ofNat (ds.foldl (fun acc c => acc * 16 + hexVal c) 0))
    else parseDecDigits sr.1 sr.2
  | _ => parseDecDigits sr.1 sr.2

/-- The level filter: `s.level === parseInt(filters.level)`; strict equality
against `NaN` is false. -/
def levelTest (levelFilter : String) (s : Session) : Bool :=
  match parseIntJS levelFilter with
  | some n => s.level == n
  | none => false

/-- JavaScript `>=` against a `parseInt` result (`none` = `NaN`: every
comparison false). -/
def jsGe (x : Option Int) (n : Int) : Bool :=
  match x with
  | some v => decide (n ≤ v)
  | none => false

/-- JavaScript `<` against a `parseInt` result (`none` = `NaN`: every
comparison false). -/
def jsLt (x : Option Int) (n : Int) : Bool :=
  match x with
  | some v => decide (v < n)
  | none => false

/-- The text before the first colon: `startTime.split(':')[0]`. -/
def hourField (s : String) : String :=
  ⟨s.data.takeWhile (fun c => !(c == ':'))⟩

/-- The time-band filter of the search view: classify by the parsed hour of
`startTime`; evening wraps over midnight; unknown band names pass everything
(the `default` switch arm). -/
def timeBandTest (timeRange : String) (s : Session) : Bool :=
  let time := parseIntJS (hourField s.startTime)
  if timeRange == "morning" then jsGe time 4 && jsLt time 12
  else if timeRange == "afternoon" then jsGe time 12 && jsLt time 18
  else if timeRange == "evening" then jsGe time 18 || jsLt time 4
  else true

/-- The filter chain of `fetchSchedules` (its `Apply filters` block); each
non-empty field narrows the list, and the conditions combine by logical AND. -/
def applyFilters (sessions : List Session) (filters : ScheduleFilter) :
    List Session :=
  let f1 := if filters.day == "" then sessions
    else sessions.filter (fun s => s.day == filters.day)
  let f2 := if filters.level == "" then f1
    else f1.filter (levelTest filters.level)
  if filters.timeRange == "" then f2
  else f2.filter (timeBandTest filters.timeRange)

theorem ite_filter_sublist (c : Prop) [Decidable c] (l : List Session)
    (p : Session → Bool) : List.Sublist (if c then l else l.filter p) l := by
  split
  · exact List.Sublist.refl l
  · exact List.filter_sublist l

/-- C4: with no filter fields set `applyFilters` returns the input unchanged,
and with any combination of filters the output is a subsequence of the input
(the relative order of the surviving sessions is preserved). -/
theorem applyFilters_identity_and_order_preserving
    (sessions : List Session) (filters : ScheduleFilter) :
    applyFilters sessions ⟨"", "", ""⟩ = sessions ∧
    List.Sublist (applyFilters sessions filters) sessions := by
  constructor
  · rfl
  · simp only [applyFilters]
    exact List.Sublist.trans (ite_filter_sublist _ _ _)
      (List.Sublist.trans (ite_filter_sublist _ _ _) (ite_filter_sublist _ _ _))

/-- C8 counterexample: with the non-parseable level filter value `"abc"` the
filter chain silently returns the empty list; no `InvalidFilterError` exists
on this code path (its result is a plain session list). -/
theorem level_filter_nan_silently_empty :
    parseIntJS "abc" = none ∧
    applyFilters demoSessions ⟨"", "abc", ""⟩ = [] ∧
    applyFilters demoSessions ⟨"", "", ""⟩ = demoSessions := by decide

/-- C8 amended: a level filter value that `parseInt` cannot parse makes the
strict comparison `s.level === NaN` false for every session, so the chain
silently yields an empty result instead of reporting an error. -/
theorem level_filter_nan_yields_empty
    (sessions : List Session) (filters : ScheduleFilter)
    (hne : filters.level ≠ "") (hnan : parseIntJS filters.level = none) :
    applyFilters sessions filters = [] := by
  have hbe : (filters.level == "") = false := by
    simp [hne]
  have hlt : ∀ (l : List Session), l.filter (levelTest filters.level) = [] := by
    intro l
    apply List.filter_eq_nil_iff.mpr
    intro a _
    simp [levelTest, hnan]
  simp [applyFilters, hbe, hlt]

theorem level_filter_nan_yields_empty_witness :
    (("abc" : String) ≠ "" ∧ parseIntJS "abc" = none) ∧
    applyFilters demoSessions ⟨"", "abc", ""⟩ = [] :=
  ⟨⟨by decide, by decide⟩,
    level_filter_nan_yields_empty demoSessions ⟨"", "abc", ""⟩ (by decide)
      (by decide)⟩

/-- The per-day sort of the weekly view (`localeCompare` on start times). -/
def weeklyLE (a b : Session) : Bool := strLe a.startTime b.startTime

/-- The initial `schedulesByDay` table: an empty bucket for each of the seven
weekday names, and no other key. -/
def emptyWeek : String → Option (List Session) :=
  fun d => if daysMon.contains d then some [] else none

/-- Model of `schedulesByDay[schedule.day].push(schedule)`: appends to the bucket, or
fails (the JS `TypeError` on `undefined.push`) when the day is not a key. -/
def pushSession (m : String → Option (List Session)) (s : Session) :
    Option (String → Option (List Session)) :=
  match m s.day with
  | some l => some (fun d => if d == s.day then some (l ++ [s]) else m d)
  | none => none

/-- The grouping loop of `fetchWeeklySchedules`. -/
def groupByDay (sessions : List Session) :
    Option (String → Option (List Session)) :=
  sessions.foldlM pushSession emptyWeek

/-- The pure core of `fetchWeeklySchedules` (the spec's `buildWeek`): group the sessions
by day, sort every bucket by start time, lay the week out Monday..Sunday. -/
def buildWeek (sessions : List Session) : Option (List DaySchedule) :=
  (groupByDay sessions).map fun m =>
    daysMon.map fun day => ⟨day, ((m day).getD []).mergeSort weeklyLE⟩

/-- Dyadic rationals `n * 2^e`: the exact values of IEEE-754 binary64
numbers, which is what JS numbers are. -/
structure Dy where
  n : Int
  e : Int
  deriving DecidableEq

/-- Powers of two in `ℚ`, for stating the value of a dyadic. -/
def pow2 (e : Int) : ℚ := (2 : ℚ) ^ e

/-- The rational value of a dyadic. -/
def Dy.toRat (a : Dy) : ℚ := (a.n : ℚ) * pow2 a.e

/-- Floor of the binary logarithm, by fuel (structural recursion, so the
kernel can evaluate it). -/
def log2Aux : Nat → Nat → Nat
  | 0, _ => 0
  | Nat.succ fuel, n => if 2 ≤ n then log2Aux fuel (n / 2) + 1 else 0

def ilog2 (n : Nat) : Nat := log2Aux 256 n

/-- Round `n / 2^k` to the nearest integer, ties to even. -/
def rneShift (n : Int) (k : Nat) : Int :=
  let d : Int := 2 ^ k
  let q := n / d
  let r := n % d
  if 2 * r < d then q
  else if d < 2 * r then q + 1
  else if q % 2 = 0 then q else q + 1

/-- Round a dyadic to the nearest IEEE-754 binary64 value: keep at most 53
significand bits, round to nearest, ties to even (the magnitudes this app
computes stay in the normal range). -/
def Dy.fl (a : Dy) : Dy :=
  if a.n = 0 then ⟨0, 0⟩
  else
    let k := ilog2 a.n.natAbs
    if k ≤ 52 then a
    else ⟨rneShift a.n (k - 52), a.e + (k - 52)⟩

/-- Round `a / b` to the nearest integer, ties to even. -/
def rneDiv (a b : Nat) : Int :=
  let q := a / b
  let r := a % b
  if 2 * r < b then (q : Int)
  else if b < 2 * r then (q : Int) + 1
  else if q % 2 = 0 then (q : Int) else (q : Int) + 1

/-- The binary64 result of the JS division `minutes / 60`. -/
def flFrac (mm : Nat) : Dy :=
  if mm = 0 then ⟨0, 0⟩
  else
    let t := ilog2 (mm * 2 ^ 20 / 60)
    ⟨rneDiv (mm * 2 ^ (72 - t)) 60, (t : Int) - 72⟩

/-- Exact sum of two dyadics (the operand alignment of a float adder). -/
def Dy.add (a b : Dy) : Dy :=
  if a.e ≤ b.e then ⟨a.n + b.n * 2 ^ (b.e - a.e).toNat, a.e⟩
  else ⟨a.n * 2 ^ (a.e - b.e).toNat + b.n, b.e⟩

/-- Exact difference of two dyadics. -/
def Dy.sub (a b : Dy) : Dy := Dy.add a ⟨-b.n, b.e⟩

/-- Exact product of a dyadic with a natural number. -/
def Dy.scale (a : Dy) (k : Nat) : Dy := ⟨a.n * k, a.e⟩

/-- The JS double `(hours + minutes/60) * 60` on hour/minute components:
every operation rounds its exact result to the nearest binary64 value. -/
def posMinutes (hh mm : Nat) : Dy :=
  Dy.fl (Dy.scale (Dy.fl (Dy.add ⟨(hh : Int), 0⟩ (flFrac mm))) 60)

/-- Model of `getSchedulePosition`: the binary64 evaluation of
`(hours + minutes / 60) * 60`, minutes from the start of the day. -/
def getSchedulePosition (time : String) : Dy :=
  posMinutes (hoursOf time) (minsOf time)

/-- Model of `getScheduleHeight`: the binary64 difference of the end and
start positions. -/
def getScheduleHeight (startTime endTime : String) : Dy :=
  Dy.fl (Dy.sub (getSchedulePosition endTime) (getSchedulePosition startTime))

theorem pow2_pos (e : Int) : 0 < pow2 e := zpow_pos (by norm_num) e

theorem pow2_add (x y : Int) : pow2 (x + y) = pow2 x * pow2 y :=
  zpow_add₀ (by norm_num) x y

theorem pow2_natCastQ (k : Nat) : pow2 (k : Int) = (2 : ℚ) ^ k := zpow_natCast 2 k

theorem pow2_neg_one : pow2 (-1) = 1 / 2 := by
  rw [pow2]
  norm_num

theorem pow2_zero : pow2 0 = 1 := zpow_zero 2

theorem Dy.toRat_mk (n e : Int) : (⟨n, e⟩ : Dy).toRat = (n : ℚ) * pow2 e := rfl

theorem log2Aux_spec : ∀ (fuel n : Nat), 1 ≤ n → n < 2 ^ fuel →
    2 ^ log2Aux fuel n ≤ n ∧ n < 2 ^ (log2Aux fuel n + 1) := by
  intro fuel
  induction fuel with
  | zero =>
    intro n h1 h2
    simp at h2
    omega
  | succ fuel ih =>
    intro n h1 h2
    rw [log2Aux]
    split
    · next h =>
      have hp : 2 ^ (fuel + 1) = 2 * 2 ^ fuel := by ring
      obtain ⟨l1, l2⟩ := ih (n / 2) (by omega) (by omega)
      have e1 : 2 ^ (log2Aux fuel (n / 2) + 1) = 2 * 2 ^ (log2Aux fuel (n / 2)) := by
        ring
      have e2 : 2 ^ (log2Aux fuel (n / 2) + 1 + 1) =
          2 * 2 ^ (log2Aux fuel (n / 2) + 1) := by ring
      omega
    · next h =>
      simp only [pow_zero, pow_one]
      omega

theorem rneShift_err (x : Int) (k : Nat) :
    |((rneShift x k : Int) : ℚ) - (x : ℚ) / (2 : ℚ) ^ k| ≤ 1 / 2 := by
  have hd : (0 : Int) < 2 ^ k := by positivity
  have hqr := Int.ediv_add_emod x (2 ^ k)
  have hr0 : (0 : Int) ≤ x % 2 ^ k := Int.emod_nonneg x (by positivity)
  have hr1 : x % 2 ^ k < 2 ^ k := Int.emod_lt_of_pos x hd
  simp only [rneShift]
  set q := x / (2 ^ k : Int) with hq
  set r := x % (2 ^ k : Int) with hr
  have hx : (x : ℚ) / (2 : ℚ) ^ k = (q : ℚ) + (r : ℚ) / (2 : ℚ) ^ k := by
    have h2k : ((2 : ℚ) ^ k) ≠ 0 := by positivity
    field_simp
    push_cast [← hqr]
    ring
  rw [hx]
  have hrq0 : (0 : ℚ) ≤ (r : ℚ) := by exact_mod_cast hr0
  have hrq1 : (r : ℚ) < (2 : ℚ) ^ k := by exact_mod_cast hr1
  split_ifs with c1 c2 c3
  · have c1q : 2 * (r : ℚ) < (2 : ℚ) ^ k := by exact_mod_cast c1
    rw [show (q : ℚ) - ((q : ℚ) + (r : ℚ) / (2 : ℚ) ^ k) =
        -((r : ℚ) / (2 : ℚ) ^ k) from by ring, abs_neg,
      abs_of_nonneg (by positivity)]
    rw [div_le_div_iff₀ (by positivity) (by norm_num)]
    linarith
  · have c2q : (2 : ℚ) ^ k < 2 * (r : ℚ) := by exact_mod_cast c2
    push_cast
    rw [show (q : ℚ) + 1 - ((q : ℚ) + (r : ℚ) / (2 : ℚ) ^ k) =
        ((2 : ℚ) ^ k - (r : ℚ)) / (2 : ℚ) ^ k from by field_simp; ring,
      abs_of_nonneg (div_nonneg (by linarith) (by positivity))]
    rw [div_le_div_iff₀ (by positivity) (by norm_num)]
    linarith
  · have ceq : 2 * (r : ℚ) = (2 : ℚ) ^ k := by
      have heqz : 2 * r = (2 : Int) ^ k := by omega
      exact_mod_cast heqz
    rw [show (q : ℚ) - ((q : ℚ) + (r : ℚ) / (2 : ℚ) ^ k) =
        -((r : ℚ) / (2 : ℚ) ^ k) from by ring, abs_neg,
      abs_of_nonneg (by positivity)]
    rw [div_le_div_iff₀ (by positivity) (by norm_num)]
    linarith
  · have ceq : 2 * (r : ℚ) = (2 : ℚ) ^ k := by
      have heqz : 2 * r = (2 : Int) ^ k := by omega
      exact_mod_cast heqz
    push_cast
    rw [show (q : ℚ) + 1 - ((q : ℚ) + (r : ℚ) / (2 : ℚ) ^ k) =
        ((2 : ℚ) ^ k - (r : ℚ)) / (2 : ℚ) ^ k from by field_simp; ring,
      abs_of_nonneg (div_nonneg (by linarith) (by positivity))]
    rw [div_le_div_iff₀ (by positivity) (by norm_num)]
    linarith

theorem Dy.fl_err (a : Dy) (hn : a.n.natAbs < 2 ^ 256) :
    |(Dy.fl a).toRat - a.toRat| ≤ |a.toRat| * pow2 (-53) := by
  simp only [Dy.fl]
  split_ifs with h0 hk
  · have hz : a.toRat = 0 := by
      rw [Dy.toRat, h0]
      simp
    rw [hz, Dy.toRat_mk]
    simp
  · rw [sub_self, abs_zero]
    exact mul_nonneg (abs_nonneg _) (le_of_lt (pow2_pos _))
  · set k := ilog2 a.n.natAbs with hkdef
    have hk52 : 52 < k := by omega
    have h1 : 1 ≤ a.n.natAbs := by
      have := Int.natAbs_pos.mpr h0
      omega
    obtain ⟨hl1, hl2⟩ := log2Aux_spec 256 a.n.natAbs h1 hn
    set m : Nat := k - 52 with hmdef
    have hkm : k = m + 52 := by omega
    have h2m : ((2 : ℚ) ^ m) ≠ 0 := by positivity
    rw [show (k : Int) - 52 = (m : Int) from by omega]
    have key : (⟨rneShift a.n m, a.e + m⟩ : Dy).toRat - a.toRat =
        ((rneShift a.n m : ℚ) - (a.n : ℚ) / (2 : ℚ) ^ m) * pow2 (a.e + m) := by
      rw [Dy.toRat_mk, Dy.toRat, pow2_add, pow2_natCastQ]
      field_simp
      ring
    rw [key, abs_mul, abs_of_pos (pow2_pos _)]
    have hstep : |(rneShift a.n m : ℚ) - (a.n : ℚ) / (2 : ℚ) ^ m| * pow2 (a.e + m) ≤
        (1 / 2) * pow2 (a.e + m) :=
      mul_le_mul_of_nonneg_right (rneShift_err a.n m) (le_of_lt (pow2_pos _))
    refine le_trans hstep ?_
    have habs : |a.toRat| = (a.n.natAbs : ℚ) * pow2 a.e := by
      rw [Dy.toRat, abs_mul, abs_of_pos (pow2_pos _)]
      congr 1
      rw [← Int.cast_abs, Int.abs_eq_natAbs]
      exact Int.cast_natCast a.n.natAbs
    have hge : pow2 (k : Int) * pow2 a.e ≤ |a.toRat| := by
      rw [habs, pow2_natCastQ]
      have hcast : ((2 : ℚ) ^ k) ≤ (a.n.natAbs : ℚ) := by exact_mod_cast hl1
      exact mul_le_mul_of_nonneg_right hcast (le_of_lt (pow2_pos _))
    have heq : (1 / 2) * pow2 (a.e + m) = pow2 (k : Int) * pow2 a.e * pow2 (-53) := by
      rw [← pow2_neg_one, ← pow2_add, ← pow2_add, ← pow2_add]
      congr 1
      omega
    rw [heq]
    exact mul_le_mul_of_nonneg_right hge (le_of_lt (pow2_pos _))

theorem Dy.toRat_add (a b : Dy) : (Dy.add a b).toRat = a.toRat + b.toRat := by
  rw [Dy.add]
  split_ifs with h
  · have ht : (((b.e - a.e).toNat : Nat) : Int) = b.e - a.e :=
      Int.toNat_of_nonneg (by omega)
    rw [Dy.toRat_mk, Dy.toRat, Dy.toRat]
    push_cast
    rw [add_mul, mul_assoc, ← pow2_natCastQ, ← pow2_add, ht, sub_add_cancel]
  · have ht : (((a.e - b.e).toNat : Nat) : Int) = a.e - b.e :=
      Int.toNat_of_nonneg (by omega)
    rw [Dy.toRat_mk, Dy.toRat, Dy.toRat]
    push_cast
    rw [add_mul, mul_assoc, ← pow2_natCastQ, ← pow2_add, ht, sub_add_cancel]

theorem Dy.toRat_neg (a : Dy) : (⟨-a.n, a.e⟩ : Dy).toRat = -a.toRat := by
  rw [Dy.toRat_mk, Dy.toRat]
  push_cast
  ring

theorem Dy.toRat_sub (a b : Dy) : (Dy.sub a b).toRat = a.toRat - b.toRat := by
  rw [Dy.sub, Dy.toRat_add, Dy.toRat_neg]
  ring

theorem pow2_le_pow2 {x y : Int} (h : x ≤ y) : pow2 x ≤ pow2 y := by
  rw [pow2, pow2]
  exact zpow_le_zpow_right₀ (by norm_num) h

theorem pow2_twelve : pow2 12 = 4096 := by
  rw [pow2]
  norm_num

/-- Exhaustive check over the 60 minute values: the binary64 quotient
`minutes / 60` has significand at most `2^53`, exponent in `[-60, 0]`, and
its value scaled by 60 is within `2^(-45)` of the minute count (stated as
an integer inequality the kernel can evaluate). -/
def fracCheck : Bool :=
  (List.range 60).all fun mm =>
    let f := flFrac mm
    decide (f.n.natAbs ≤ 2 ^ 53) && decide (-60 ≤ f.e) && decide (f.e ≤ 0) &&
      decide ((f.n * 60 - (mm : Int) * 2 ^ (-f.e).toNat).natAbs * 2 ^ 45 ≤
        2 ^ (-f.e).toNat)

set_option maxHeartbeats 1600000 in
set_option maxRecDepth 4000 in
theorem fracCheck_true : fracCheck = true := by decide

theorem flFrac_facts (mm : Nat) (h : mm < 60) :
    (flFrac mm).n.natAbs ≤ 2 ^ 53 ∧ -60 ≤ (flFrac mm).e ∧ (flFrac mm).e ≤ 0 ∧
      |60 * (flFrac mm).toRat - (mm : ℚ)| ≤ pow2 (-45) := by
  have hc := fracCheck_true
  rw [fracCheck, List.all_eq_true] at hc
  have hc2 := hc mm (List.mem_range.mpr h)
  simp only [Bool.and_eq_true, decide_eq_true_eq] at hc2
  obtain ⟨⟨⟨hn, he1⟩, he2⟩, hint⟩ := hc2
  refine ⟨hn, he1, he2, ?_⟩
  set f := flFrac mm with hf
  set E := (-f.e).toNat with hE
  have htE : ((E : Nat) : Int) = -f.e := Int.toNat_of_nonneg (by omega)
  have hEE : pow2 ((E : Nat) : Int) * pow2 f.e = 1 := by
    rw [← pow2_add, htE, show -f.e + f.e = 0 from by ring, pow2_zero]
  have key : 60 * f.toRat - (mm : ℚ) =
      ((f.n * 60 - (mm : Int) * 2 ^ E : Int) : ℚ) * pow2 f.e := by
    rw [Dy.toRat]
    push_cast
    rw [← pow2_natCastQ]
    linear_combination (mm : ℚ) * hEE
  rw [key, abs_mul, abs_of_pos (pow2_pos _)]
  have habs : |((f.n * 60 - (mm : Int) * 2 ^ E : Int) : ℚ)| =
      ((f.n * 60 - (mm : Int) * 2 ^ E).natAbs : ℚ) := by
    rw [← Int.cast_abs, Int.abs_eq_natAbs]
    exact Int.cast_natCast _
  rw [habs]
  have hNat : ((f.n * 60 - (mm : Int) * 2 ^ E).natAbs : ℚ) * (2 : ℚ) ^ 45 ≤
      (2 : ℚ) ^ E := by exact_mod_cast hint
  have hprod : (2 : ℚ) ^ 45 * pow2 (-45) = 1 := by
    rw [show ((2 : ℚ) ^ 45 : ℚ) = pow2 ((45 : Nat) : Int) from
      (pow2_natCastQ 45).symm, ← pow2_add]
    rw [show ((45 : Nat) : Int) + -45 = 0 from by norm_num, pow2_zero]
  have hmul := mul_le_mul_of_nonneg_right hNat (le_of_lt (pow2_pos (-45)))
  rw [mul_assoc, hprod, mul_one] at hmul
  have hchain : (2 : ℚ) ^ E * pow2 (-45) * pow2 f.e = pow2 (-45) := by
    rw [← pow2_natCastQ]
    linear_combination pow2 (-45) * hEE
  calc ((f.n * 60 - (mm : Int) * 2 ^ E).natAbs : ℚ) * pow2 f.e
      ≤ (2 : ℚ) ^ E * pow2 (-45) * pow2 f.e :=
        mul_le_mul_of_nonneg_right hmul (le_of_lt (pow2_pos _))
    _ = pow2 (-45) := hchain

theorem rneShift_natAbs (n : Int) (k : Nat) :
    (rneShift n k).natAbs ≤ n.natAbs + 1 := by
  have hq : |n / 2 ^ k| ≤ |n| := Int.abs_ediv_le_abs n (2 ^ k)
  rw [Int.abs_eq_natAbs, Int.abs_eq_natAbs] at hq
  have hq2 : (n / 2 ^ k).natAbs ≤ n.natAbs := by exact_mod_cast hq
  rw [rneShift]
  split_ifs <;> omega

theorem ilog2_lt {n C : Nat} (h1 : 1 ≤ n) (hC : C ≤ 256) (hn : n < 2 ^ C) :
    ilog2 n < C := by
  have hn2 : n < 2 ^ 256 :=
    lt_of_lt_of_le hn (Nat.pow_le_pow_right (by norm_num) hC)
  obtain ⟨l1, -⟩ := log2Aux_spec 256 n h1 hn2
  rw [ilog2]
  by_contra hcon
  push_neg at hcon
  have h2 : 2 ^ C ≤ 2 ^ log2Aux 256 n := Nat.pow_le_pow_right (by norm_num) hcon
  have h3 : 2 ^ C ≤ n := le_trans h2 l1
  omega

theorem Dy.fl_bounds (a : Dy) (C : Nat) (lo hi : Int) (h52 : 52 ≤ C)
    (hC : C ≤ 255) (hn : a.n.natAbs ≤ 2 ^ C) (hlo : lo ≤ a.e) (hhi : a.e ≤ hi)
    (hlo0 : lo ≤ 0) (hhi0 : 0 ≤ hi) :
    (Dy.fl a).n.natAbs ≤ 2 ^ C + 1 ∧ lo ≤ (Dy.fl a).e ∧
      (Dy.fl a).e ≤ hi + ((C : Int) - 52) := by
  simp only [Dy.fl]
  split_ifs with h0 hk
  · refine ⟨?_, ?_, ?_⟩
    · show (0 : Int).natAbs ≤ 2 ^ C + 1
      simp
    · show lo ≤ (0 : Int)
      exact hlo0
    · show (0 : Int) ≤ hi + ((C : Int) - 52)
      omega
  · exact ⟨le_trans hn (Nat.le_succ _), hlo, by omega⟩
  · have h1 : 1 ≤ a.n.natAbs := by
      have h2 := Int.natAbs_pos.mpr h0
      omega
    have hpow : (2 : Nat) ^ C < 2 ^ (C + 1) := Nat.pow_lt_pow_succ (by norm_num)
    have hklt : ilog2 a.n.natAbs < C + 1 :=
      ilog2_lt h1 (by omega) (lt_of_le_of_lt hn hpow)
    push_neg at hk
    refine ⟨le_trans (rneShift_natAbs a.n _) (Nat.add_le_add_right hn 1),
      ?_, ?_⟩
    · show lo ≤ a.e + ((ilog2 a.n.natAbs : Int) - 52)
      omega
    · show a.e + ((ilog2 a.n.natAbs : Int) - 52) ≤ hi + ((C : Int) - 52)
      omega

theorem Dy.toRat_scale (a : Dy) (k : Nat) :
    (Dy.scale a k).toRat = a.toRat * k := by
  rw [Dy.scale, Dy.toRat_mk, Dy.toRat]
  push_cast
  ring

theorem addHour_bounds (hh mm : Nat) (h1 : hh < 24) (h2 : mm < 60) :
    (Dy.add ⟨(hh : Int), 0⟩ (flFrac mm)).n.natAbs ≤ 2 ^ 65 ∧
      -60 ≤ (Dy.add ⟨(hh : Int), 0⟩ (flFrac mm)).e ∧
      (Dy.add ⟨(hh : Int), 0⟩ (flFrac mm)).e ≤ 0 := by
  obtain ⟨hn, he1, he2, -⟩ := flFrac_facts mm h2
  set f := flFrac mm with hf
  rw [Dy.add]
  split_ifs with h
  · simp only at h ⊢
    have he0 : f.e = 0 := le_antisymm he2 h
    refine ⟨?_, by omega, by omega⟩
    have ht : (f.e - 0).toNat = 0 := by omega
    rw [ht]
    calc ((hh : Int) + f.n * 2 ^ 0).natAbs
        ≤ ((hh : Int)).natAbs + (f.n * 2 ^ 0).natAbs := Int.natAbs_add_le _ _
      _ = hh + f.n.natAbs := by
          rw [Int.natAbs_mul, Int.natAbs_ofNat]
          simp
      _ ≤ 24 + 2 ^ 53 := by omega
      _ ≤ 2 ^ 65 := by norm_num
  · simp only at h ⊢
    refine ⟨?_, he1, by omega⟩
    have hs : (0 - f.e).toNat ≤ 60 := by omega
    have hp : ((2 : Int) ^ (0 - f.e).toNat).natAbs = 2 ^ (0 - f.e).toNat := by
      rw [Int.natAbs_pow]
      rfl
    calc ((hh : Int) * 2 ^ (0 - f.e).toNat + f.n).natAbs
        ≤ ((hh : Int) * 2 ^ (0 - f.e).toNat).natAbs + f.n.natAbs :=
          Int.natAbs_add_le _ _
      _ = hh * 2 ^ (0 - f.e).toNat + f.n.natAbs := by
          rw [Int.natAbs_mul, Int.natAbs_ofNat, hp]
      _ ≤ 24 * 2 ^ 60 + 2 ^ 53 :=
          Nat.add_le_add (Nat.mul_le_mul (by omega)
            (Nat.pow_le_pow_right (by norm_num) hs)) hn
      _ ≤ 2 ^ 65 := by norm_num

theorem posMinutes_bounds (hh mm : Nat) (h1 : hh < 24) (h2 : mm < 60) :
    (posMinutes hh mm).n.natAbs ≤ 2 ^ 73 ∧
      -60 ≤ (posMinutes hh mm).e ∧ (posMinutes hh mm).e ≤ 33 := by
  obtain ⟨han, hae1, hae2⟩ := addHour_bounds hh mm h1 h2
  simp only [posMinutes]
  set f := flFrac mm with hf
  set a := Dy.add ⟨(hh : Int), 0⟩ f with ha
  obtain ⟨hbn, hbe1, hbe2⟩ := Dy.fl_bounds a 65 (-60) 0 (by norm_num)
    (by norm_num) han hae1 hae2 (by norm_num) (by norm_num)
  set b := Dy.fl a with hb
  have hcn : (Dy.scale b 60).n.natAbs ≤ 2 ^ 72 := by
    simp only [Dy.scale, Int.natAbs_mul, Int.natAbs_ofNat]
    calc b.n.natAbs * 60 ≤ (2 ^ 65 + 1) * 60 := Nat.mul_le_mul_right _ hbn
      _ ≤ 2 ^ 72 := by norm_num
  have hce : (Dy.scale b 60).e = b.e := rfl
  obtain ⟨hpn, hpe1, hpe2⟩ := Dy.fl_bounds (Dy.scale b 60) 72 (-60) 13
    (by norm_num) (by norm_num) hcn (by rw [hce]; exact hbe1)
    (by rw [hce]; omega) (by norm_num) (by norm_num)
  exact ⟨le_trans hpn (by norm_num), hpe1, by omega⟩

theorem posMinutes_close (hh mm : Nat) (h1 : hh < 24) (h2 : mm < 60) :
    |(posMinutes hh mm).toRat - ((60 * hh + mm : Nat) : ℚ)| ≤ pow2 (-40) := by
  obtain ⟨hfn, hfe1, hfe2, hferr⟩ := flFrac_facts mm h2
  obtain ⟨han, hae1, hae2⟩ := addHour_bounds hh mm h1 h2
  simp only [posMinutes]
  set f := flFrac mm with hf
  set a := Dy.add ⟨(hh : Int), 0⟩ f with ha
  have haval : a.toRat = (hh : ℚ) + f.toRat := by
    rw [ha, Dy.toRat_add, Dy.toRat_mk, pow2_zero, mul_one]
    norm_cast
  have hp45 : pow2 (-45) ≤ 1 := by
    have hmono := pow2_le_pow2 (show (-45 : Int) ≤ 0 by norm_num)
    rwa [pow2_zero] at hmono
  have hp53 : pow2 (-53) ≤ 1 := by
    have hmono := pow2_le_pow2 (show (-53 : Int) ≤ 0 by norm_num)
    rwa [pow2_zero] at hmono
  have hm0 : (0 : ℚ) ≤ (mm : ℚ) := by positivity
  have hmQ : (mm : ℚ) ≤ 59 := by exact_mod_cast (by omega : mm ≤ 59)
  have hfabs : |f.toRat| ≤ 1 := by
    rw [abs_le] at hferr ⊢
    constructor <;> linarith
  have hhQ : (hh : ℚ) ≤ 23 := by exact_mod_cast (by omega : hh ≤ 23)
  have hh0 : (0 : ℚ) ≤ (hh : ℚ) := by positivity
  have haabs : |a.toRat| ≤ 25 := by
    rw [haval]
    rw [abs_le] at hfabs ⊢
    constructor <;> linarith
  set b := Dy.fl a with hb
  have herr1 : |b.toRat - a.toRat| ≤ |a.toRat| * pow2 (-53) :=
    Dy.fl_err a (lt_of_le_of_lt han (by norm_num))
  have hbabs : |b.toRat| ≤ 50 := by
    have h3 : |b.toRat| ≤ |a.toRat| + |b.toRat - a.toRat| := by
      have h4 := abs_add a.toRat (b.toRat - a.toRat)
      simpa using h4
    have h5 : |a.toRat| * pow2 (-53) ≤ 25 * 1 :=
      mul_le_mul haabs hp53 (le_of_lt (pow2_pos _)) (by norm_num)
    linarith
  obtain ⟨hbn, hbe1, hbe2⟩ := Dy.fl_bounds a 65 (-60) 0 (by norm_num)
    (by norm_num) han hae1 hae2 (by norm_num) (by norm_num)
  set c := Dy.scale b 60 with hc
  have hcval : c.toRat = b.toRat * 60 := Dy.toRat_scale b 60
  have hcn : c.n.natAbs ≤ 2 ^ 72 := by
    rw [hc]
    simp only [Dy.scale, Int.natAbs_mul, Int.natAbs_ofNat]
    calc b.n.natAbs * 60 ≤ (2 ^ 65 + 1) * 60 := Nat.mul_le_mul_right _ hbn
      _ ≤ 2 ^ 72 := by norm_num
  have herr2 : |(Dy.fl c).toRat - c.toRat| ≤ |c.toRat| * pow2 (-53) :=
    Dy.fl_err c (lt_of_le_of_lt hcn (by norm_num))
  have hcabs : |c.toRat| ≤ 3000 := by
    rw [hcval, abs_mul]
    rw [show |(60 : ℚ)| = 60 from by norm_num]
    nlinarith [abs_nonneg b.toRat]
  have hM : ((60 * hh + mm : Nat) : ℚ) = 60 * (hh : ℚ) + (mm : ℚ) := by
    push_cast
    ring
  have hsplit : c.toRat - ((60 * hh + mm : Nat) : ℚ) =
      60 * (b.toRat - a.toRat) + (60 * f.toRat - (mm : ℚ)) := by
    rw [hcval, hM, haval]
    ring
  have habs2 : |c.toRat - ((60 * hh + mm : Nat) : ℚ)| ≤
      60 * (|a.toRat| * pow2 (-53)) + pow2 (-45) := by
    rw [hsplit]
    refine le_trans (abs_add _ _) ?_
    have h6 : |60 * (b.toRat - a.toRat)| = 60 * |b.toRat - a.toRat| := by
      rw [abs_mul]
      norm_num
    rw [h6]
    exact add_le_add (by linarith) hferr
  have hfinal1 : |(Dy.fl c).toRat - c.toRat| ≤ pow2 (-41) := by
    refine le_trans herr2 ?_
    have h7 : |c.toRat| * pow2 (-53) ≤ 4096 * pow2 (-53) :=
      mul_le_mul_of_nonneg_right (le_trans hcabs (by norm_num))
        (le_of_lt (pow2_pos _))
    have h8 : (4096 : ℚ) * pow2 (-53) = pow2 (-41) := by
      rw [show (4096 : ℚ) = pow2 12 from by rw [pow2]; norm_num, ← pow2_add]
      norm_num
    linarith
  have hfinal2 : 60 * (|a.toRat| * pow2 (-53)) ≤ pow2 (-42) := by
    have h9 : |a.toRat| * pow2 (-53) ≤ 25 * pow2 (-53) :=
      mul_le_mul_of_nonneg_right haabs (le_of_lt (pow2_pos _))
    have h10 : (2048 : ℚ) * pow2 (-53) = pow2 (-42) := by
      rw [show (2048 : ℚ) = pow2 11 from by rw [pow2]; norm_num, ← pow2_add]
      norm_num
    have h11 := pow2_pos (-53 : Int)
    linarith
  have hcomb : pow2 (-41) + (pow2 (-42) + pow2 (-45)) ≤ pow2 (-40) := by
    have e1 : pow2 (-41) = pow2 4 * pow2 (-45) := by
      rw [← pow2_add]
      norm_num
    have e2 : pow2 (-42) = pow2 3 * pow2 (-45) := by
      rw [← pow2_add]
      norm_num
    have e3 : pow2 (-40) = pow2 5 * pow2 (-45) := by
      rw [← pow2_add]
      norm_num
    have e4 : pow2 4 = 16 := by
      rw [pow2]
      norm_num
    have e5 : pow2 3 = 8 := by
      rw [pow2]
      norm_num
    have e6 : pow2 5 = 32 := by
      rw [pow2]
      norm_num
    rw [e1, e2, e3, e4, e5, e6]
    have h12 := pow2_pos (-45 : Int)
    linarith
  calc |(Dy.fl c).toRat - ((60 * hh + mm : Nat) : ℚ)|
      ≤ |(Dy.fl c).toRat - c.toRat| +
        |c.toRat - ((60 * hh + mm : Nat) : ℚ)| := abs_sub_le _ _ _
    _ ≤ pow2 (-41) + (pow2 (-42) + pow2 (-45)) :=
        add_le_add hfinal1 (le_trans habs2 (add_le_add hfinal2 le_rfl))
    _ ≤ pow2 (-40) := hcomb

theorem posDiff_close (h1 m1 h2 m2 : Nat) (hh1 : h1 < 24) (hm1 : m1 < 60)
    (hh2 : h2 < 24) (hm2 : m2 < 60) :
    |(Dy.fl (Dy.sub (posMinutes h2 m2) (posMinutes h1 m1))).toRat -
      (((60 * h2 + m2 : Nat) : ℚ) - ((60 * h1 + m1 : Nat) : ℚ))| ≤ pow2 (-38) := by
  obtain ⟨hn1, he1a, he1b⟩ := posMinutes_bounds h1 m1 hh1 hm1
  obtain ⟨hn2, he2a, he2b⟩ := posMinutes_bounds h2 m2 hh2 hm2
  have hc1 := posMinutes_close h1 m1 hh1 hm1
  have hc2 := posMinutes_close h2 m2 hh2 hm2
  set p1 := posMinutes h1 m1
  set p2 := posMinutes h2 m2
  set M1 : ℚ := ((60 * h1 + m1 : Nat) : ℚ) with hM1def
  set M2 : ℚ := ((60 * h2 + m2 : Nat) : ℚ) with hM2def
  have hsubAbs : (Dy.sub p2 p1).n.natAbs < 2 ^ 256 := by
    rw [Dy.sub, Dy.add]
    split_ifs with h
    · have hs : (p1.e - p2.e).toNat ≤ 93 := by omega
      have hp : ((2 : Int) ^ (p1.e - p2.e).toNat).natAbs =
          2 ^ (p1.e - p2.e).toNat := by
        rw [Int.natAbs_pow]
        rfl
      calc (p2.n + -p1.n * 2 ^ (p1.e - p2.e).toNat).natAbs
          ≤ p2.n.natAbs + (-p1.n * 2 ^ (p1.e - p2.e).toNat).natAbs :=
            Int.natAbs_add_le _ _
        _ = p2.n.natAbs + p1.n.natAbs * 2 ^ (p1.e - p2.e).toNat := by
            rw [Int.natAbs_mul, Int.natAbs_neg, hp]
        _ ≤ 2 ^ 73 + 2 ^ 73 * 2 ^ 93 :=
            Nat.add_le_add hn2 (Nat.mul_le_mul hn1
              (Nat.pow_le_pow_right (by norm_num) hs))
        _ < 2 ^ 256 := by norm_num
    · have hs : (p2.e - p1.e).toNat ≤ 93 := by omega
      have hp : ((2 : Int) ^ (p2.e - p1.e).toNat).natAbs =
          2 ^ (p2.e - p1.e).toNat := by
        rw [Int.natAbs_pow]
        rfl
      calc (p2.n * 2 ^ (p2.e - p1.e).toNat + -p1.n).natAbs
          ≤ (p2.n * 2 ^ (p2.e - p1.e).toNat).natAbs + (-p1.n).natAbs :=
            Int.natAbs_add_le _ _
        _ = p2.n.natAbs * 2 ^ (p2.e - p1.e).toNat + p1.n.natAbs := by
            rw [Int.natAbs_mul, Int.natAbs_neg, hp]
        _ ≤ 2 ^ 73 * 2 ^ 93 + 2 ^ 73 :=
            Nat.add_le_add (Nat.mul_le_mul hn2
              (Nat.pow_le_pow_right (by norm_num) hs)) hn1
        _ < 2 ^ 256 := by norm_num
  have hdval : (Dy.sub p2 p1).toRat = p2.toRat - p1.toRat := Dy.toRat_sub p2 p1
  have hflerr := Dy.fl_err (Dy.sub p2 p1) hsubAbs
  rw [hdval] at hflerr
  have hM1b : 0 ≤ M1 ∧ M1 ≤ 1439 := by
    constructor
    · positivity
    · rw [hM1def]
      have hle : 60 * h1 + m1 ≤ 1439 := by omega
      exact_mod_cast hle
  have hM2b : 0 ≤ M2 ∧ M2 ≤ 1439 := by
    constructor
    · positivity
    · rw [hM2def]
      have hle : 60 * h2 + m2 ≤ 1439 := by omega
      exact_mod_cast hle
  have hp40 : pow2 (-40) ≤ 1 := by
    have hmono := pow2_le_pow2 (show (-40 : Int) ≤ 0 by norm_num)
    rwa [pow2_zero] at hmono
  have habs1 : |p1.toRat - M1| ≤ pow2 (-40) := hc1
  have habs2 : |p2.toRat - M2| ≤ pow2 (-40) := hc2
  have habsd : |p2.toRat - p1.toRat| ≤ pow2 12 := by
    rw [pow2_twelve]
    rw [abs_le] at habs1 habs2 ⊢
    constructor <;> linarith [hM1b.1, hM1b.2, hM2b.1, hM2b.2]
  have htri : |(Dy.fl (Dy.sub p2 p1)).toRat - (M2 - M1)| ≤
      |(Dy.fl (Dy.sub p2 p1)).toRat - (p2.toRat - p1.toRat)| +
        |(p2.toRat - p1.toRat) - (M2 - M1)| := abs_sub_le _ _ _
  have htri2 : |(p2.toRat - p1.toRat) - (M2 - M1)| ≤
      |p2.toRat - M2| + |p1.toRat - M1| := by
    have hre : (p2.toRat - p1.toRat) - (M2 - M1) =
        (p2.toRat - M2) - (p1.toRat - M1) := by ring
    rw [hre, sub_eq_add_neg]
    refine le_trans (abs_add _ _) ?_
    rw [abs_neg]
  have hmul : |p2.toRat - p1.toRat| * pow2 (-53) ≤ pow2 12 * pow2 (-53) :=
    mul_le_mul_of_nonneg_right habsd (le_of_lt (pow2_pos _))
  have hrw1 : pow2 12 * pow2 (-53) = pow2 (-41) := by
    rw [← pow2_add]
    norm_num
  have hfinal : pow2 (-41) + (pow2 (-40) + pow2 (-40)) ≤ pow2 (-38) := by
    have e1 : pow2 (-40) + pow2 (-40) = pow2 (-39) := by
      rw [show (-39 : Int) = 1 + -40 from by norm_num, pow2_add]
      rw [show pow2 1 = 2 from by rw [pow2]; norm_num]
      ring
    rw [e1]
    have e2 : pow2 (-39) = pow2 2 * pow2 (-41) := by
      rw [← pow2_add]
      norm_num
    have e3 : pow2 (-38) = pow2 3 * pow2 (-41) := by
      rw [← pow2_add]
      norm_num
    have e4 : pow2 2 = 4 := by
      rw [pow2]
      norm_num
    have e5 : pow2 3 = 8 := by
      rw [pow2]
      norm_num
    rw [e2, e3, e4, e5]
    have hppos := pow2_pos (-41 : Int)
    linarith
  calc |(Dy.fl (Dy.sub p2 p1)).toRat - (M2 - M1)|
      ≤ |(Dy.fl (Dy.sub p2 p1)).toRat - (p2.toRat - p1.toRat)| +
        |(p2.toRat - p1.toRat) - (M2 - M1)| := htri
    _ ≤ |p2.toRat - p1.toRat| * pow2 (-53) +
        (|p2.toRat - M2| + |p1.toRat - M1|) := add_le_add hflerr htri2
    _ ≤ pow2 12 * pow2 (-53) + (pow2 (-40) + pow2 (-40)) :=
        add_le_add hmul (add_le_add habs2 habs1)
    _ = pow2 (-41) + (pow2 (-40) + pow2 (-40)) := by rw [hrw1]
    _ ≤ pow2 (-38) := hfinal

theorem isHHMM_bounds {s : String} (h : isHHMM s = true) :
    hoursOf s < 24 ∧ minsOf s < 60 := by
  obtain ⟨h1, h2, m1, m2, hd, _, _, _, _, _, _, _, _, hh, hm⟩ := isHHMM_shape h
  constructor
  · simpa [hoursOf, hd] using hh
  · simpa [minsOf, hd] using hm

theorem getSchedulePosition_close (time : String) (h : isHHMM time = true) :
    |(getSchedulePosition time).toRat - (minutesSinceMidnight time : ℚ)| ≤
      pow2 (-40) := by
  obtain ⟨hh, hm⟩ := isHHMM_bounds h
  have hclose := posMinutes_close (hoursOf time) (minsOf time) hh hm
  have hMeq : ((60 * hoursOf time + minsOf time : Nat) : ℚ) =
      (minutesSinceMidnight time : ℚ) := by
    rw [minutesSinceMidnight]
    congr 1
    ring
  rw [hMeq] at hclose
  exact hclose

theorem getScheduleHeight_close (st et : String) (hst : isHHMM st = true)
    (het : isHHMM et = true) :
    |(getScheduleHeight st et).toRat -
      ((minutesSinceMidnight et : ℚ) - (minutesSinceMidnight st : ℚ))| ≤
      pow2 (-38) := by
  obtain ⟨hh1, hm1⟩ := isHHMM_bounds hst
  obtain ⟨hh2, hm2⟩ := isHHMM_bounds het
  have hclose := posDiff_close (hoursOf st) (minsOf st) (hoursOf et) (minsOf et)
    hh1 hm1 hh2 hm2
  have hMeq1 : ((60 * hoursOf st + minsOf st : Nat) : ℚ) =
      (minutesSinceMidnight st : ℚ) := by
    rw [minutesSinceMidnight]
    congr 1
    ring
  have hMeq2 : ((60 * hoursOf et + minsOf et : Nat) : ℚ) =
      (minutesSinceMidnight et : ℚ) := by
    rw [minutesSinceMidnight]
    congr 1
    ring
  rw [hMeq1, hMeq2] at hclose
  exact hclose

theorem weeklyLE_trans (a b c : Session) (h1 : weeklyLE a b = true)
    (h2 : weeklyLE b c = true) : weeklyLE a c = true :=
  strLe_trans a.startTime b.startTime c.startTime h1 h2

theorem weeklyLE_total (a b : Session) : (weeklyLE a b || weeklyLE b a) = true :=
  strLe_total a.startTime b.startTime

theorem foldlM_pushSession_ok :
    ∀ (l : List Session) (m : String → Option (List Session)),
      (∀ s ∈ l, (m s.day).isSome = true) →
      ∃ m', List.foldlM pushSession m l = some m' ∧
        (∀ d b, m d = some b →
          m' d = some (b ++ l.filter (fun s => s.day == d))) ∧
        (∀ d, m d = none → m' d = none) := by
  intro l
  induction l with
  | nil =>
    intro m _
    refine ⟨m, rfl, ?_, fun d h => h⟩
    intro d b hb
    simp [hb]
  | cons u l ih =>
    intro m hm
    obtain ⟨b0, hb0⟩ := Option.isSome_iff_exists.mp (hm u (by simp))
    have hpush : pushSession m u =
        some (fun d => if d == u.day then some (b0 ++ [u]) else m d) := by
      rw [pushSession, hb0]
    have hm1 : ∀ s ∈ l, ((fun d => if d == u.day then some (b0 ++ [u]) else m d)
        s.day).isSome = true := by
      intro s hs
      by_cases hsd : (s.day == u.day) = true
      · simp [hsd]
      · simp only [hsd]
        simp only [Bool.false_eq_true, if_false]
        exact hm s (by simp [hs])
    obtain ⟨m', hfold, hsome, hnone⟩ :=
      ih (fun d => if d == u.day then some (b0 ++ [u]) else m d) hm1
    refine ⟨m', ?_, ?_, ?_⟩
    · rw [List.foldlM_cons, hpush]
      exact hfold
    · intro d b hb
      by_cases hd : (d == u.day) = true
      · have hdeq : d = u.day := by simpa using hd
        have hbb : b = b0 := by
          rw [hdeq, hb0] at hb
          exact (Option.some_inj.mp hb).symm
        have := hsome d (b0 ++ [u]) (by simp [hd])
        rw [this, hbb, List.filter_cons_of_pos (by simp [hdeq])]
        simp
      · have hdne : ¬u.day = d := by
          intro he
          rw [he] at hd
          simp at hd
        have := hsome d b (by simp [hd, hb])
        rw [this, List.filter_cons_of_neg (by simp [hdne])]
    · intro d hd
      have hdne : (d == u.day) = false := by
        cases hq : (d == u.day)
        · rfl
        · have heq : d = u.day := by simpa using hq
          rw [heq, hb0] at hd
          simp at hd
      exact hnone d (by simp [hdne, hd])

theorem buildWeek_valid (sessions : List Session)
    (hday : ∀ s ∈ sessions, s.day ∈ daysMon) :
    buildWeek sessions =
      some (daysMon.map fun day =>
        ⟨day, (sessions.filter (fun s => s.day == day)).mergeSort weeklyLE⟩) := by
  have hpre : ∀ s ∈ sessions, (emptyWeek s.day).isSome = true := by
    intro s hs
    have hcont : daysMon.contains s.day = true := by
      simpa [List.contains, List.elem_iff] using hday s hs
    unfold emptyWeek
    rw [if_pos hcont]
    rfl
  obtain ⟨m', hfold, hsome, -⟩ := foldlM_pushSession_ok sessions emptyWeek hpre
  rw [buildWeek, groupByDay, hfold]
  simp only [Option.map_some']
  congr 1
  apply List.map_congr_left
  intro d hd
  have hcont : daysMon.contains d = true := by
    simpa [List.contains, List.elem_iff] using hd
  have hm : emptyWeek d = some [] := by
    unfold emptyWeek
    rw [if_pos hcont]
  rw [hsome d [] hm]
  simp

/-- Counterexample to reading the layout positions as exact minute counts:
at "00:31" the JS double `(0 + 31/60) * 60` evaluates to
31.000000000000004 (the dyadic 8725724278030337/2^48), not 31, so
`getSchedulePosition` differs from the minutes since midnight. -/
theorem getSchedulePosition_not_exact :
    getSchedulePosition "00:31" = ⟨8725724278030337, -48⟩ ∧
    (getSchedulePosition "00:31").toRat ≠ (minutesSinceMidnight "00:31" : ℚ) := by
  constructor
  · decide
  · have h : getSchedulePosition "00:31" = ⟨8725724278030337, -48⟩ := by decide
    have hm : minutesSinceMidnight "00:31" = 31 := by decide
    have hp : pow2 (-48) = 1 / 2 ^ 48 := by
      rw [pow2, show (-48 : Int) = -((48 : Nat) : Int) from by norm_num,
        zpow_neg, zpow_natCast]
      norm_num
    rw [h, hm, Dy.toRat_mk, hp]
    norm_num

/-- C7: for sessions on the seven weekday names `buildWeek` produces exactly
7 groups ordered Monday..Sunday (an empty input gives 7 empty groups), every
group holds that day's sessions sorted ascending by start time; a session's
layout position is the binary64 evaluation of its start minutes, within
2^(-40) of the exact minute count (not always equal: see "00:31"), the
height likewise within 2^(-38) of the duration, and on the demo times
18:00/20:00 the position and height are exactly 1080 and 120. -/
theorem buildWeek_seven_ordered_sorted
    (sessions : List Session)
    (hday : ∀ s ∈ sessions, s.day ∈ daysMon)
    (hwf : ∀ s ∈ sessions, isHHMM s.startTime = true) :
    buildWeek sessions =
      some (daysMon.map fun day =>
        ⟨day, (sessions.filter (fun s => s.day == day)).mergeSort weeklyLE⟩) ∧
    (∀ l, buildWeek sessions = some l →
      l.map DaySchedule.day = daysMon ∧ l.length = 7 ∧
      ∀ g ∈ l, g.schedules.Pairwise (fun a b =>
          minutesSinceMidnight a.startTime ≤ minutesSinceMidnight b.startTime) ∧
        ∀ s ∈ g.schedules, s ∈ sessions ∧ s.day = g.day) ∧
    buildWeek [] = some (daysMon.map fun day => ⟨day, []⟩) ∧
    (∀ time : String, isHHMM time = true →
      |(getSchedulePosition time).toRat - (minutesSinceMidnight time : ℚ)| ≤
        pow2 (-40)) ∧
    (∀ st et : String, isHHMM st = true → isHHMM et = true →
      |(getScheduleHeight st et).toRat -
        ((minutesSinceMidnight et : ℚ) - (minutesSinceMidnight st : ℚ))| ≤
        pow2 (-38)) ∧
    ((getSchedulePosition "18:00").toRat = 1080 ∧
      (getScheduleHeight "18:00" "20:00").toRat = 120) := by
  refine ⟨buildWeek_valid sessions hday, ?_, ?_,
    fun time h => getSchedulePosition_close time h,
    fun st et hst het => getScheduleHeight_close st et hst het, ?_, ?_⟩
  · intro l hl
    rw [buildWeek_valid sessions hday] at hl
    obtain rfl := Option.some_inj.mp hl
    refine ⟨?_, ?_, ?_⟩
    · simp [List.map_map]
      rfl
    · simp [daysMon]
    · intro g hg
      rcases List.mem_map.mp hg with ⟨d, hdmem, rfl⟩
      constructor
      · have hp := List.sorted_mergeSort
          (fun a b c => weeklyLE_trans a b c) weeklyLE_total
          (sessions.filter (fun s => s.day == d))
        refine List.Pairwise.imp_of_mem ?_ hp
        intro a b ha hb hab
        have ha' := (List.mem_filter.mp (List.mem_mergeSort.mp ha)).1
        have hb' := (List.mem_filter.mp (List.mem_mergeSort.mp hb)).1
        exact (strLe_iff_minutes (hwf a ha') (hwf b hb')).mp hab
      · intro s hs
        have hsf := List.mem_filter.mp (List.mem_mergeSort.mp hs)
        exact ⟨hsf.1, by simpa using hsf.2⟩
  · simpa using buildWeek_valid [] (by simp)
  · have h18 : getSchedulePosition "18:00" = ⟨1080, 0⟩ := by decide
    rw [h18, Dy.toRat_mk, pow2_zero]
    norm_num
  · have h20 : getScheduleHeight "18:00" "20:00" = ⟨120, 0⟩ := by decide
    rw [h20, Dy.toRat_mk, pow2_zero]
    norm_num

theorem buildWeek_seven_ordered_sorted_witness :
    ((∀ s ∈ demoSessions, s.day ∈ daysMon) ∧
      (∀ s ∈ demoSessions, isHHMM s.startTime = true)) ∧
    buildWeek demoSessions =
      some (daysMon.map fun day =>
        ⟨day, (demoSessions.filter (fun s => s.day == day)).mergeSort weeklyLE⟩) :=
  ⟨⟨by decide, by decide⟩,
    (buildWeek_seven_ordered_sorted demoSessions (by decide) (by decide)).1⟩

theorem foldlM_pushSession_none :
    ∀ (l : List Session) (m : String → Option (List Session)),
      (∀ d, (m d).isSome = true ↔ d ∈ daysMon) →
      ∀ s ∈ l, s.day ∉ daysMon → List.foldlM pushSession m l = none := by
  intro l
  induction l with
  | nil =>
    intro m _ s hs
    simp at hs
  | cons u t ih =>
    intro m hinv s hs hbad
    rcases List.mem_cons.mp hs with rfl | hs'
    · have hnone : m s.day = none := by
        cases hm : m s.day with
        | none => rfl
        | some b =>
          exact absurd ((hinv s.day).mp (by rw [hm]; rfl)) hbad
      rw [List.foldlM_cons, pushSession, hnone]
      rfl
    · cases hm : m u.day with
      | none =>
        rw [List.foldlM_cons, pushSession, hm]
        rfl
      | some b0 =>
        have hstep : pushSession m u =
            some (fun d => if d == u.day then some (b0 ++ [u]) else m d) := by
          rw [pushSession, hm]
        have hinv1 : ∀ d,
            ((fun d => if d == u.day then some (b0 ++ [u]) else m d) d).isSome =
              true ↔ d ∈ daysMon := by
          intro d
          by_cases hd : (d == u.day) = true
          · have hdeq : d = u.day := by simpa using hd
            simp only [hd, if_true, Option.isSome_some, true_iff]
            rw [hdeq]
            exact (hinv u.day).mp (by rw [hm]; rfl)
          · simp only [hd]
            simp only [Bool.false_eq_true, if_false]
            exact hinv d
        rw [List.foldlM_cons, hstep]
        show List.foldlM pushSession
          (fun d => if d == u.day then some (b0 ++ [u]) else m d) t = none
        exact ih (fun d => if d == u.day then some (b0 ++ [u]) else m d)
          hinv1 s hs' hbad

/-- C9: `buildWeek` is total exactly under the precondition that every
session's day is one of the seven weekday names: with valid days it returns a
value, and any session whose day is any other string makes the grouping step
fail (the bucket for that day does not exist), rather than returning 7 groups
or silently dropping the session. -/
theorem buildWeek_total_iff_known_days (sessions : List Session) :
    ((∀ s ∈ sessions, s.day ∈ daysMon) → ∃ l, buildWeek sessions = some l) ∧
    (∀ s ∈ sessions, s.day ∉ daysMon → buildWeek sessions = none) := by
  constructor
  · intro h
    exact ⟨_, buildWeek_valid sessions h⟩
  · intro s hs hbad
    have hinv : ∀ d, (emptyWeek d).isSome = true ↔ d ∈ daysMon := by
      intro d
      unfold emptyWeek
      constructor
      · intro hsome
        by_cases hc : daysMon.contains d = true
        · simpa [List.contains, List.elem_iff] using hc
        · rw [if_neg hc] at hsome
          simp at hsome
      · intro hmem
        rw [if_pos (by simpa [List.contains, List.elem_iff] using hmem)]
        rfl
    have hg : groupByDay sessions = none :=
      foldlM_pushSession_none sessions emptyWeek hinv s hs hbad
    rw [buildWeek, hg]
    rfl

/-- A session whose day is not a weekday name. -/
def funkySession : Session := ⟨"doc9", "Funday", "10:00", "12:00", 1, "sub1"⟩

theorem buildWeek_total_iff_known_days_witness :
    ((funkySession ∈ [funkySession] ∧ funkySession.day ∉ daysMon) ∧
      (∀ s ∈ demoSessions, s.day ∈ daysMon)) ∧
    (buildWeek [funkySession] = none ∧ ∃ l, buildWeek demoSessions = some l) :=
  ⟨⟨⟨by decide, by decide⟩, by decide⟩,
    ⟨(buildWeek_total_iff_known_days [funkySession]).2 funkySession (by decide)
        (by decide),
      (buildWeek_total_iff_known_days demoSessions).1 (by decide)⟩⟩
